import Mathlib

/-!
Verification development for the sonic-snmpagent vendor MIB tables.

The definitions below are shallow embeddings of the Python classes in
`src/sonic_ax_impl/mibs/vendor/cisco/`:

* `QueueStatUpdater` (ciscoSwitchQosMIB.py): the 4-dimensional
  (interface, direction, queue, counter) odometer walker and its
  counter resolution.
* `PfcUpdater` / `PfcPrioUpdater` (ciscoPfcExtMIB.py): the flat
  interface walker based on `bisect_right` and the per-priority draft.
* `PowerStatusHandler` (ciscoEntityFRUControlMIB.py): the PSU status
  table backed by the `psuutil` subprocess.

Dictionaries of the Python classes are embedded as `Option`-valued
functions (`none` models a missing key, i.e. a `KeyError` on subscript).
Counter values read from redis are modelled as already-decoded `Int`s
(the Python code applies `int(...)` to the raw strings).
Python `None` results and uncaught exceptions are distinguished by
dedicated result types.
-/

/-- Boolean lexicographic strict order on integer OID suffixes; this is
exactly Python's `<` on tuples of ints. -/
def lexLtB : List Nat → List Nat → Bool
  | [], [] => false
  | [], _ :: _ => true
  | _ :: _, [] => false
  | a :: as, b :: bs => if a < b then true else if b < a then false else lexLtB as bs

theorem lexLtB_cons_same (a : Nat) (as bs : List Nat) :
    lexLtB (a :: as) (a :: bs) = lexLtB as bs := by
  simp [lexLtB]

theorem lexLtB_cons_lt {a b : Nat} (h : a < b) (as bs : List Nat) :
    lexLtB (a :: as) (b :: bs) = true := by
  simp [lexLtB, h]

theorem lexLtB_irrefl : ∀ l : List Nat, lexLtB l l = false
  | [] => rfl
  | a :: as => by rw [lexLtB_cons_same]; exact lexLtB_irrefl as

theorem lexLtB_trans : ∀ {a b c : List Nat},
    lexLtB a b = true → lexLtB b c = true → lexLtB a c = true
  | [], [], _, h, _ => by cases h
  | [], _ :: _, [], _, h => by cases h
  | [], _ :: _, _ :: _, _, _ => rfl
  | _ :: _, [], _, h, _ => by cases h
  | _ :: _, _ :: _, [], _, h => by cases h
  | a :: as, b :: bs, c :: cs, h1, h2 => by
    rcases Nat.lt_trichotomy a b with hab | hab | hab
    · rcases Nat.lt_trichotomy b c with hbc | hbc | hbc
      · exact lexLtB_cons_lt (Nat.lt_trans hab hbc) as cs
      · subst hbc; exact lexLtB_cons_lt hab as cs
      · rw [lexLtB] at h2
        rw [if_neg (Nat.lt_asymm hbc), if_pos hbc] at h2
        cases h2
    · subst hab
      rcases Nat.lt_trichotomy a c with hbc | hbc | hbc
      · exact lexLtB_cons_lt hbc as cs
      · subst hbc
        rw [lexLtB_cons_same] at h1 h2 ⊢
        exact lexLtB_trans h1 h2
      · rw [lexLtB] at h2
        rw [if_neg (Nat.lt_asymm hbc), if_pos hbc] at h2
        cases h2
    · rw [lexLtB] at h1
      rw [if_neg (Nat.lt_asymm hab), if_pos hab] at h1
      cases h1

theorem lexLtB_asymm {a b : List Nat} (h : lexLtB a b = true) : lexLtB b a = false := by
  by_contra hc
  have hba : lexLtB b a = true := by
    cases hh : lexLtB b a
    · exact absurd hh hc
    · rfl
  have := lexLtB_trans h hba
  rw [lexLtB_irrefl] at this
  cases this

/-- Chain' together with a transitive relation yields Pairwise. -/
theorem pairwise_of_chain' {α : Type} {R : α → α → Prop}
    (ht : ∀ a b c : α, R a b → R b c → R a c) :
    ∀ {l : List α}, l.Chain' R → l.Pairwise R := by
  intro l
  induction l with
  | nil => intro _; exact List.Pairwise.nil
  | cons a t ih =>
    intro h
    rw [List.chain'_cons'] at h
    refine List.Pairwise.cons ?_ (ih h.2)
    intro b hb
    cases t with
    | nil => cases hb
    | cons x t2 =>
      have hax : R a x := h.1 x rfl
      cases hb with
      | head => exact hax
      | tail _ hb => exact ht _ _ _ hax (List.rel_of_pairwise_cons (ih h.2) hb)

theorem pairwise_lt_of_chain' {l : List Nat} (h : l.Chain' (· < ·)) :
    l.Pairwise (· < ·) :=
  pairwise_of_chain' (R := (· < ·)) (fun _ _ _ hab hbc => Nat.lt_trans hab hbc) h

/-- Builds a Chain' from a proof about every adjacent-pair decomposition. -/
theorem chain'_of_splits {α : Type} {R : α → α → Prop} :
    ∀ (L : List α), (∀ l1 a b l2, L = l1 ++ a :: b :: l2 → R a b) → L.Chain' R := by
  intro L
  induction L with
  | nil => intro _; exact List.chain'_nil
  | cons x t ih =>
    intro h
    cases t with
    | nil => exact List.chain'_singleton x
    | cons y t2 =>
      refine List.Chain'.cons (h [] x y t2 rfl) (ih ?_)
      intro l1 a b l2 he
      exact h (x :: l1) a b l2 (by rw [he]; rfl)

/-! ## ciscoSwitchQosMIB: CounterMap and DirectionTypes -/

/-- CounterMap from ciscoSwitchQosMIB.py: maps the SNMP queue stat
counter id to the SAI counter field name and the required queue type. -/
def CounterMap : List (Nat × String × String) :=
  [ (1, ("SAI_QUEUE_STAT_PACKETS", "SAI_QUEUE_TYPE_UNICAST")),
    (2, ("SAI_QUEUE_STAT_BYTES", "SAI_QUEUE_TYPE_UNICAST")),
    (3, ("SAI_QUEUE_STAT_PACKETS", "SAI_QUEUE_TYPE_MULTICAST")),
    (4, ("SAI_QUEUE_STAT_BYTES", "SAI_QUEUE_TYPE_MULTICAST")),
    (5, ("SAI_QUEUE_STAT_DROPPED_PACKETS", "SAI_QUEUE_TYPE_UNICAST")),
    (6, ("SAI_QUEUE_STAT_DROPPED_BYTES", "SAI_QUEUE_TYPE_UNICAST")),
    (7, ("SAI_QUEUE_STAT_DROPPED_PACKETS", "SAI_QUEUE_TYPE_MULTICAST")),
    (8, ("SAI_QUEUE_STAT_DROPPED_BYTES", "SAI_QUEUE_TYPE_MULTICAST")) ]

/-- CounterMap subscription `CounterMap[queue_counter_id]` (`none` models the
KeyError branch). -/
def lookupCounter (queue_counter_id : Nat) : Option (String × String) :=
  (CounterMap.find? (fun e => e.1 = queue_counter_id)).map Prod.snd

/-- min(CounterMap.keys()) computed in `QueueStatUpdater.__init__`. -/
def min_counter : Nat := ((CounterMap.map Prod.fst).min?).getD 0

/-- max(CounterMap.keys()) computed in `QueueStatUpdater.__init__`. -/
def max_counter : Nat := ((CounterMap.map Prod.fst).max?).getD 0

theorem min_counter_eq : min_counter = 1 := by decide

theorem max_counter_eq : max_counter = 8 := by decide

/-- DirectionTypes.INGRESS from ciscoSwitchQosMIB.py. -/
def DirectionTypes.INGRESS : Nat := 1

/-- DirectionTypes.EGRESS from ciscoSwitchQosMIB.py. -/
def DirectionTypes.EGRESS : Nat := 2

/-- Result of a `get_next` call: a returned suffix, a returned Python
`None` (end of table), or an uncaught exception. -/
inductive GNResult where
  | next (s : List Nat)
  | endOfTable
  | error
deriving DecidableEq

/-- State of a `QueueStatUpdater` object after `reinit_data`/`update_data`.
Dictionaries are `Option`-valued functions.  `port_queues_map` is keyed in the
source by `mibs.queue_key(if_index, queue_index)`; `queue_stat_map` is keyed by
`mibs.queue_table(queue_oid)`.  Those two naming helpers are not under src/;
modelled from the spec ("keys are deterministic functions of an entity's
internal identifier"), the maps are keyed here directly by the underlying
(interface, queue index) pair and the queue oid.  `get_index` models
`mibs.get_index` (also not under src/): the topology source's mapping from an
interface name to its OID index. -/
structure QueueStatUpdater where
  if_range : List Nat
  port_queue_list_map : Nat → Option (List Nat)
  port_queues_map : Nat → Int → Option Nat
  queue_type_map : Nat → Option String
  queue_stat_map : Nat → Option (String → Option Int)
  oid_lag_name_map : Nat → Option String
  lag_name_if_name_map : String → Option (List String)
  get_index : String → Nat

/-- Python `max` over a list of Nat (callers guard against the empty list,
where Python would raise ValueError). -/
def listMax (l : List Nat) : Nat := l.foldr max 0

/-- QueueStatUpdater.get_next from ciscoSwitchQosMIB.py.  The input list
models the sub-identifier tuple (`[]` covers both `None` and the empty
tuple, which Python's `if not sub_id:` treats alike).  `GNResult.error`
models an uncaught KeyError/IndexError/ValueError. -/
def QueueStatUpdater.get_next (u : QueueStatUpdater) (sub_id : List Nat) : GNResult :=
  match sub_id with
  | [] =>
    match u.if_range with
    | [] => .error
    | i :: _ =>
      match u.port_queue_list_map i with
      | none => .error
      | some qs =>
        match qs with
        | [] => .error
        | q :: _ => .next [i, DirectionTypes.INGRESS, q, min_counter]
  | [i] =>
    match u.port_queue_list_map i with
    | none => .error
    | some qs =>
      match qs with
      | [] => .error
      | q :: _ => .next [i, DirectionTypes.INGRESS, q, min_counter]
  | [i, d] =>
    match u.port_queue_list_map i with
    | none => .error
    | some qs =>
      match qs with
      | [] => .error
      | q :: _ => .next [i, d, q, min_counter]
  | [i, d, q] => .next [i, d, q, min_counter]
  | [i, d, q, c] =>
    if c < max_counter then .next [i, d, q, c + 1]
    else
      match u.port_queue_list_map i with
      | none => .error
      | some qs =>
        if qs = [] then .error
        else if q < listMax qs then
          match qs[qs.indexOf q + 1]? with
          | none => .error
          | some q2 => .next [i, d, q2, min_counter]
        else if d = DirectionTypes.INGRESS then
          .next [i, DirectionTypes.EGRESS, qs.headD 0, min_counter]
        else if u.if_range.indexOf i < u.if_range.length then
          if u.if_range.indexOf i = u.if_range.length - 1 then .endOfTable
          else
            match u.if_range[u.if_range.indexOf i + 1]? with
            | none => .error
            | some i2 =>
              match u.port_queue_list_map i2 with
              | none => .error
              | some qs2 =>
                match qs2 with
                | [] => .error
                | q2 :: _ => .next [i2, DirectionTypes.INGRESS, q2, min_counter]
        else .error
  | _ => .error

/-! ## Canonical index of the queue-stats table

`queueIndex` is the address space the spec describes: for every interface
of `if_range`, both directions, every queue position of that interface
and every counter id of `CounterMap`, in tuple-lexicographic order. -/

/-- Counter ids of `CounterMap`, in order. -/
def ctrRange : List Nat := CounterMap.map Prod.fst

theorem ctrRange_eq : ctrRange = [1, 2, 3, 4, 5, 6, 7, 8] := by decide

/-- Queue position list of an interface (`[]` when the dictionary has no
entry for it). -/
def queuesOf (u : QueueStatUpdater) (i : Nat) : List Nat :=
  (u.port_queue_list_map i).getD []

/-- Rows of one (interface, direction, queue) cell: one suffix per counter id. -/
def ctrRows (i d q : Nat) : List (List Nat) :=
  ctrRange.map (fun c => [i, d, q, c])

/-- Rows of one (interface, direction) cell: all queue positions. -/
def queueRows (u : QueueStatUpdater) (i d : Nat) : List (List Nat) :=
  (queuesOf u i).flatMap (fun q => ctrRows i d q)

/-- Rows of one interface: ingress rows then egress rows. -/
def rowsFor (u : QueueStatUpdater) (i : Nat) : List (List Nat) :=
  queueRows u i DirectionTypes.INGRESS ++ queueRows u i DirectionTypes.EGRESS

/-- The full ordered address space of the queue-stats table. -/
def queueIndex (u : QueueStatUpdater) : List (List Nat) :=
  u.if_range.flatMap (rowsFor u)

/-- Well-formed updater state: `if_range` strictly sorted, and every
interface of the range has a non-empty strictly sorted queue list. -/
def QueueStatUpdater.WF (u : QueueStatUpdater) : Prop :=
  u.if_range.Chain' (· < ·) ∧
  ∀ i ∈ u.if_range, queuesOf u i ≠ [] ∧ (queuesOf u i).Chain' (· < ·)

/-- Iterating `get_next`, feeding every returned suffix back in, for at
most `fuel` steps. -/
def walkFrom (u : QueueStatUpdater) (s : List Nat) : Nat → List (List Nat)
  | 0 => []
  | fuel + 1 =>
    match u.get_next s with
    | .next t => t :: walkFrom u t fuel
    | _ => []

/-- The full walk of the table: iterate `get_next` from the empty suffix
with enough fuel to exhaust the address space. -/
def qWalk (u : QueueStatUpdater) : List (List Nat) :=
  walkFrom u [] ((queueIndex u).length + 1)

/-- One `get_next` step that also increases the suffix lexicographically. -/
def stepRel (u : QueueStatUpdater) (a b : List Nat) : Prop :=
  u.get_next a = GNResult.next b ∧ lexLtB a b = true

theorem QueueStatUpdater.WF.queues_some {u : QueueStatUpdater} (h : u.WF) {i : Nat}
    (hi : i ∈ u.if_range) :
    ∃ qs, u.port_queue_list_map i = some qs ∧ qs ≠ [] ∧ qs.Chain' (· < ·) := by
  obtain ⟨hne, hch⟩ := h.2 i hi
  cases hq : u.port_queue_list_map i with
  | none => exact absurd (by simp [queuesOf, hq]) hne
  | some qs =>
    refine ⟨qs, rfl, ?_, ?_⟩
    · simpa [queuesOf, hq] using hne
    · simpa [queuesOf, hq] using hch

theorem le_listMax {l : List Nat} {x : Nat} (hx : x ∈ l) : x ≤ listMax l := by
  induction l with
  | nil => cases hx
  | cons a t ih =>
    cases hx with
    | head => exact Nat.le_max_left _ _
    | tail _ hx => exact Nat.le_trans (ih hx) (Nat.le_max_right _ _)

theorem listMax_le {l : List Nat} {m : Nat} (h : ∀ x ∈ l, x ≤ m) : listMax l ≤ m := by
  induction l with
  | nil => exact Nat.zero_le m
  | cons a t ih =>
    exact Nat.max_le.2 ⟨h a (by simp), ih fun x hx => h x (List.mem_cons_of_mem a hx)⟩

theorem sorted_le_getLastD : ∀ {l : List Nat} (d : Nat), l.Chain' (· < ·) →
    ∀ x ∈ l, x ≤ l.getLastD d := by
  intro l
  induction l with
  | nil => intro d _ x hx; cases hx
  | cons a t ih =>
    intro d hch x hx
    rw [List.getLastD_cons]
    cases t with
    | nil =>
      cases hx with
      | head => simp [List.getLastD]
      | tail _ h2 => cases h2
    | cons b t2 =>
      have hab : a < b := List.rel_of_chain_cons hch
      have hchain : (b :: t2).Chain' (· < ·) := (List.chain'_cons.mp hch).2
      cases hx with
      | head =>
        exact Nat.le_trans (Nat.le_of_lt hab) (ih a hchain b (by simp))
      | tail _ h2 => exact ih a hchain x h2

/-! ## Transition lemmas for the odometer -/

theorem get_next_counter (u : QueueStatUpdater) (i d q c : Nat) (h : c < max_counter) :
    u.get_next [i, d, q, c] = .next [i, d, q, c + 1] := by
  simp [QueueStatUpdater.get_next, h]

theorem get_next_queue (u : QueueStatUpdater) (i d q q2 : Nat) (p s : List Nat)
    (hq : u.port_queue_list_map i = some (p ++ q :: q2 :: s))
    (hs : (p ++ q :: q2 :: s).Chain' (· < ·)) :
    u.get_next [i, d, q, max_counter] = .next [i, d, q2, min_counter] := by
  have hpair : (p ++ q :: q2 :: s).Pairwise (· < ·) := pairwise_lt_of_chain' hs
  have hqq2 : q < q2 := (List.chain'_append_cons_cons.mp hs).2.1
  have hnotp : q ∉ p := by
    intro hmem
    exact Nat.lt_irrefl q ((List.pairwise_append.mp hpair).2.2 q hmem q (by simp))
  have hmax : q < listMax (p ++ q :: q2 :: s) :=
    Nat.lt_of_lt_of_le hqq2 (le_listMax (by simp))
  have hidx : (p ++ q :: q2 :: s).indexOf q = p.length := by
    rw [List.indexOf_append_of_not_mem hnotp]
    simp [List.indexOf_cons_self]
  have hget : (p ++ q :: q2 :: s)[p.length + 1]? = some q2 := by
    rw [List.getElem?_append_right (by omega)]
    simp
  simp [QueueStatUpdater.get_next, hq, hmax, hidx, hget]

theorem get_next_direction (u : QueueStatUpdater) (i : Nat) (qs : List Nat)
    (hq : u.port_queue_list_map i = some qs) (hne : qs ≠ []) (hs : qs.Chain' (· < ·)) :
    u.get_next [i, DirectionTypes.INGRESS, qs.getLastD 0, max_counter] =
      .next [i, DirectionTypes.EGRESS, qs.headD 0, min_counter] := by
  have hmax : ¬ ((qs.getLast?).getD 0 < listMax qs) := by
    rw [← List.getLastD_eq_getLast?]
    exact Nat.not_lt.2 (listMax_le (sorted_le_getLastD 0 hs))
  obtain ⟨a, t, rfl⟩ := List.exists_cons_of_ne_nil hne
  simp [QueueStatUpdater.get_next, hq, hmax, DirectionTypes.INGRESS, DirectionTypes.EGRESS]

theorem get_next_iface (u : QueueStatUpdater) (l1 l2 : List Nat) (i i2 : Nat)
    (qs qs2 : List Nat)
    (hr : u.if_range = l1 ++ i :: i2 :: l2)
    (hsort : u.if_range.Chain' (· < ·))
    (hq : u.port_queue_list_map i = some qs) (hne : qs ≠ []) (hs : qs.Chain' (· < ·))
    (hq2 : u.port_queue_list_map i2 = some qs2) (hne2 : qs2 ≠ []) :
    u.get_next [i, DirectionTypes.EGRESS, qs.getLastD 0, max_counter] =
      .next [i2, DirectionTypes.INGRESS, qs2.headD 0, min_counter] := by
  have hmax : ¬ ((qs.getLast?).getD 0 < listMax qs) := by
    rw [← List.getLastD_eq_getLast?]
    exact Nat.not_lt.2 (listMax_le (sorted_le_getLastD 0 hs))
  have hpair : u.if_range.Pairwise (· < ·) := pairwise_lt_of_chain' hsort
  rw [hr] at hpair
  have hnotp : i ∉ l1 := by
    intro hmem
    exact Nat.lt_irrefl i ((List.pairwise_append.mp hpair).2.2 i hmem i (by simp))
  have hidx : u.if_range.indexOf i = l1.length := by
    rw [hr, List.indexOf_append_of_not_mem hnotp]
    simp [List.indexOf_cons_self]
  have hlen : u.if_range.length = l1.length + l2.length + 2 := by
    rw [hr]; simp; omega
  have hget : u.if_range[l1.length + 1]? = some i2 := by
    rw [hr, List.getElem?_append_right (by omega)]
    simp
  obtain ⟨a, t, rfl⟩ := List.exists_cons_of_ne_nil hne2
  simp only [QueueStatUpdater.get_next, hq, hmax, hidx, hlen, hget, hq2]
  have h1 : ¬ (max_counter < max_counter) := Nat.lt_irrefl _
  have h2 : ¬ (DirectionTypes.EGRESS = DirectionTypes.INGRESS) := by decide
  have h3 : l1.length < l1.length + l2.length + 2 := by omega
  have h4 : ¬ (l1.length = l1.length + l2.length + 1) := by omega
  simp [h1, h2, h3, h4, hne, hmax]

theorem get_next_last (u : QueueStatUpdater) (l1 : List Nat) (i : Nat) (qs : List Nat)
    (hr : u.if_range = l1 ++ [i])
    (hsort : u.if_range.Chain' (· < ·))
    (hq : u.port_queue_list_map i = some qs) (hne : qs ≠ []) (hs : qs.Chain' (· < ·)) :
    u.get_next [i, DirectionTypes.EGRESS, qs.getLastD 0, max_counter] = .endOfTable := by
  have hmax : ¬ ((qs.getLast?).getD 0 < listMax qs) := by
    rw [← List.getLastD_eq_getLast?]
    exact Nat.not_lt.2 (listMax_le (sorted_le_getLastD 0 hs))
  have hpair : u.if_range.Pairwise (· < ·) := pairwise_lt_of_chain' hsort
  rw [hr] at hpair
  have hnotp : i ∉ l1 := by
    intro hmem
    exact Nat.lt_irrefl i ((List.pairwise_append.mp hpair).2.2 i hmem i (by simp))
  have hidx : u.if_range.indexOf i = l1.length := by
    rw [hr, List.indexOf_append_of_not_mem hnotp]
    simp [List.indexOf_cons_self]
  have hlen : u.if_range.length = l1.length + 1 := by rw [hr]; simp
  simp only [QueueStatUpdater.get_next, hq, hmax, hidx, hlen]
  have h1 : ¬ (max_counter < max_counter) := Nat.lt_irrefl _
  have h2 : ¬ (DirectionTypes.EGRESS = DirectionTypes.INGRESS) := by decide
  have h3 : l1.length < l1.length + 1 := by omega
  simp [h1, h2, h3, hne, hmax]

theorem get_next_start (u : QueueStatUpdater) (i : Nat) (rest qs : List Nat)
    (hr : u.if_range = i :: rest)
    (hq : u.port_queue_list_map i = some qs) (hne : qs ≠ []) :
    u.get_next [] = .next [i, DirectionTypes.INGRESS, qs.headD 0, min_counter] := by
  obtain ⟨a, t, rfl⟩ := List.exists_cons_of_ne_nil hne
  simp [QueueStatUpdater.get_next, hr, hq]

/-! ## Assembling the walk: `get_next` enumerates `queueIndex` in order -/

theorem ctrRows_ne_nil (i d q : Nat) : ctrRows i d q ≠ [] := by
  simp [ctrRows, ctrRange_eq]

theorem ctrRows_head? (i d q : Nat) :
    (ctrRows i d q).head? = some [i, d, q, min_counter] := by
  rw [ctrRows, ctrRange_eq, min_counter_eq]
  rfl

theorem ctrRows_getLast? (i d q : Nat) :
    (ctrRows i d q).getLast? = some [i, d, q, max_counter] := by
  rw [ctrRows, ctrRange_eq, max_counter_eq]
  rfl

/-- Boolean adjacent-pair checker used to establish Chain' facts on
concrete lists by evaluation. -/
def chainB {α : Type} (r : α → α → Bool) : List α → Bool
  | [] => true
  | [_] => true
  | a :: b :: t => r a b && chainB r (b :: t)

theorem chain'_of_chainB {α : Type} {R : α → α → Prop} (r : α → α → Bool)
    (hr : ∀ a b, r a b = true → R a b) :
    ∀ {l : List α}, chainB r l = true → l.Chain' R := by
  intro l
  induction l with
  | nil => intro _; exact List.chain'_nil
  | cons a t ih =>
    cases t with
    | nil => intro _; exact List.chain'_singleton a
    | cons b t2 =>
      intro h
      rw [chainB, Bool.and_eq_true] at h
      exact List.Chain'.cons (hr a b h.1) (ih h.2)

theorem chain_ctrRows (u : QueueStatUpdater) (i d q : Nat) :
    (ctrRows i d q).Chain' (stepRel u) := by
  have base : ctrRange.Chain' (fun c c2 => c2 = c + 1 ∧ c < max_counter) := by
    refine chain'_of_chainB
      (fun c c2 => decide (c2 = c + 1) && decide (c < max_counter)) ?_ (by decide)
    intro a b hb
    rw [Bool.and_eq_true, decide_eq_true_eq, decide_eq_true_eq] at hb
    exact hb
  rw [ctrRows]
  refine List.chain'_map_of_chain' (fun c => [i, d, q, c]) ?_ base
  intro a b hab
  obtain ⟨rfl, hlt⟩ := hab
  refine ⟨get_next_counter u i d q a hlt, ?_⟩
  rw [lexLtB_cons_same, lexLtB_cons_same, lexLtB_cons_same]
  exact lexLtB_cons_lt (Nat.lt_succ_self a) [] []

theorem queueRows_eq (u : QueueStatUpdater) (i d : Nat) {qs : List Nat}
    (hq : u.port_queue_list_map i = some qs) :
    queueRows u i d = qs.flatMap (fun q => ctrRows i d q) := by
  rw [queueRows, queuesOf, hq]
  rfl

theorem queueRows_head? (u : QueueStatUpdater) (i d : Nat) {qs : List Nat}
    (hq : u.port_queue_list_map i = some qs) (hne : qs ≠ []) :
    (queueRows u i d).head? = some [i, d, qs.headD 0, min_counter] := by
  obtain ⟨a, t, rfl⟩ := List.exists_cons_of_ne_nil hne
  rw [queueRows_eq u i d hq]
  simp [ctrRows_head?]

theorem queueRows_getLast? (u : QueueStatUpdater) (i d : Nat) {qs : List Nat}
    (hq : u.port_queue_list_map i = some qs) (hne : qs ≠ []) :
    (queueRows u i d).getLast? = some [i, d, qs.getLastD 0, max_counter] := by
  rcases List.eq_nil_or_concat qs with rfl | ⟨p, a, rfl⟩
  · exact absurd rfl hne
  · rw [queueRows_eq u i d hq]
    simp [List.getLast?_append, ctrRows_getLast?]

theorem queueRows_ne_nil (u : QueueStatUpdater) (i d : Nat) {qs : List Nat}
    (hq : u.port_queue_list_map i = some qs) (hne : qs ≠ []) :
    queueRows u i d ≠ [] := by
  intro he
  have := queueRows_head? u i d hq hne
  rw [he] at this
  cases this

theorem chain_queueRows (u : QueueStatUpdater) (i d : Nat) {qs : List Nat}
    (hq : u.port_queue_list_map i = some qs) (hs : qs.Chain' (· < ·)) :
    (queueRows u i d).Chain' (stepRel u) := by
  rw [queueRows_eq u i d hq]
  have hnil : [] ∉ qs.map (fun q => ctrRows i d q) := by
    intro hmem
    rw [List.mem_map] at hmem
    obtain ⟨q, -, hq0⟩ := hmem
    exact ctrRows_ne_nil i d q hq0
  rw [show qs.flatMap (fun q => ctrRows i d q)
        = (qs.map (fun q => ctrRows i d q)).flatten from rfl]
  rw [List.chain'_flatten hnil]
  constructor
  · intro l hl
    rw [List.mem_map] at hl
    obtain ⟨q, -, rfl⟩ := hl
    exact chain_ctrRows u i d q
  · rw [List.chain'_map]
    apply chain'_of_splits
    intro p a b s hsplit
    intro x hx y hy
    rw [ctrRows_getLast?, Option.mem_def, Option.some_inj] at hx
    rw [ctrRows_head?, Option.mem_def, Option.some_inj] at hy
    subst hx
    subst hy
    refine ⟨get_next_queue u i d a b p s (by rw [hq, hsplit]) (hsplit ▸ hs), ?_⟩
    have hab : a < b := (List.chain'_append_cons_cons.mp (hsplit ▸ hs)).2.1
    rw [lexLtB_cons_same, lexLtB_cons_same]
    exact lexLtB_cons_lt hab _ _

theorem chain_rowsFor (u : QueueStatUpdater) (i : Nat) {qs : List Nat}
    (hq : u.port_queue_list_map i = some qs) (hne : qs ≠ []) (hs : qs.Chain' (· < ·)) :
    (rowsFor u i).Chain' (stepRel u) := by
  rw [rowsFor]
  refine (chain_queueRows u i _ hq hs).append (chain_queueRows u i _ hq hs) ?_
  intro x hx y hy
  rw [queueRows_getLast? u i DirectionTypes.INGRESS hq hne,
      Option.mem_def, Option.some_inj] at hx
  rw [queueRows_head? u i DirectionTypes.EGRESS hq hne,
      Option.mem_def, Option.some_inj] at hy
  subst hx
  subst hy
  refine ⟨get_next_direction u i qs hq hne hs, ?_⟩
  rw [lexLtB_cons_same]
  exact lexLtB_cons_lt (by decide) _ _

theorem rowsFor_head? (u : QueueStatUpdater) (i : Nat) {qs : List Nat}
    (hq : u.port_queue_list_map i = some qs) (hne : qs ≠ []) :
    (rowsFor u i).head? = some [i, DirectionTypes.INGRESS, qs.headD 0, min_counter] := by
  rw [rowsFor, List.head?_append, queueRows_head? u i DirectionTypes.INGRESS hq hne]
  rfl

theorem rowsFor_getLast? (u : QueueStatUpdater) (i : Nat) {qs : List Nat}
    (hq : u.port_queue_list_map i = some qs) (hne : qs ≠ []) :
    (rowsFor u i).getLast? = some [i, DirectionTypes.EGRESS, qs.getLastD 0, max_counter] := by
  rw [rowsFor, List.getLast?_append, queueRows_getLast? u i DirectionTypes.EGRESS hq hne]
  rfl

theorem rowsFor_ne_nil (u : QueueStatUpdater) (i : Nat) {qs : List Nat}
    (hq : u.port_queue_list_map i = some qs) (hne : qs ≠ []) :
    rowsFor u i ≠ [] := by
  intro he
  have := rowsFor_head? u i hq hne
  rw [he] at this
  cases this

theorem chain_queueIndex (u : QueueStatUpdater) (h : u.WF) :
    (queueIndex u).Chain' (stepRel u) := by
  have hnil : [] ∉ u.if_range.map (rowsFor u) := by
    intro hmem
    rw [List.mem_map] at hmem
    obtain ⟨i, hi, h0⟩ := hmem
    obtain ⟨qs, hq, hne, -⟩ := h.queues_some hi
    exact rowsFor_ne_nil u i hq hne h0
  rw [show queueIndex u = (u.if_range.map (rowsFor u)).flatten from rfl]
  rw [List.chain'_flatten hnil]
  constructor
  · intro l hl
    rw [List.mem_map] at hl
    obtain ⟨i, hi, rfl⟩ := hl
    obtain ⟨qs, hq, hne, hs⟩ := h.queues_some hi
    exact chain_rowsFor u i hq hne hs
  · rw [List.chain'_map]
    apply chain'_of_splits
    intro l1 a b l2 hsplit
    have hamem : a ∈ u.if_range := by rw [hsplit]; simp
    have hbmem : b ∈ u.if_range := by rw [hsplit]; simp
    obtain ⟨qsa, hqa, hnea, hsa⟩ := h.queues_some hamem
    obtain ⟨qsb, hqb, hneb, hsb⟩ := h.queues_some hbmem
    intro x hx y hy
    rw [rowsFor_getLast? u a hqa hnea, Option.mem_def, Option.some_inj] at hx
    rw [rowsFor_head? u b hqb hneb, Option.mem_def, Option.some_inj] at hy
    subst hx
    subst hy
    refine ⟨get_next_iface u l1 l2 a b qsa qsb hsplit h.1 hqa hnea hsa hqb hneb, ?_⟩
    have hab : a < b := (List.chain'_append_cons_cons.mp (hsplit ▸ h.1)).2.1
    exact lexLtB_cons_lt hab _ _

theorem queueIndex_pairwise (u : QueueStatUpdater) (h : u.WF) :
    (queueIndex u).Pairwise (fun a b => lexLtB a b = true) :=
  pairwise_of_chain' (R := fun a b => lexLtB a b = true)
    (fun _ _ _ => lexLtB_trans) ((chain_queueIndex u h).imp (fun _ _ hab => hab.2))

theorem queueIndex_nodup (u : QueueStatUpdater) (h : u.WF) : (queueIndex u).Nodup := by
  refine (queueIndex_pairwise u h).imp ?_
  intro a b hab heq
  rw [heq, lexLtB_irrefl] at hab
  cases hab

theorem queueIndex_head? (u : QueueStatUpdater) (h : u.WF) {i : Nat} {rest : List Nat}
    (hr : u.if_range = i :: rest) :
    (queueIndex u).head?
      = some [i, DirectionTypes.INGRESS, (queuesOf u i).headD 0, min_counter] := by
  obtain ⟨qs, hq, hne, -⟩ := h.queues_some (i := i) (by rw [hr]; simp)
  rw [queueIndex, hr, List.flatMap_cons, List.head?_append, rowsFor_head? u i hq hne]
  simp [queuesOf, hq]

theorem queueIndex_getLast? (u : QueueStatUpdater) (h : u.WF) {l1 : List Nat} {i : Nat}
    (hr : u.if_range = l1 ++ [i]) :
    (queueIndex u).getLast?
      = some [i, DirectionTypes.EGRESS, (queuesOf u i).getLastD 0, max_counter] := by
  obtain ⟨qs, hq, hne, -⟩ := h.queues_some (i := i) (by rw [hr]; simp)
  rw [queueIndex, hr, List.flatMap_append, List.getLast?_append]
  simp [List.flatMap_cons, List.getLast?_append, rowsFor_getLast? u i hq hne, queuesOf, hq]

theorem queueIndex_ne_nil (u : QueueStatUpdater) (h : u.WF) (hne : u.if_range ≠ []) :
    queueIndex u ≠ [] := by
  obtain ⟨i, rest, hr⟩ := List.exists_cons_of_ne_nil hne
  intro he
  have := queueIndex_head? u h hr
  rw [he] at this
  cases this

theorem walkFrom_eq_of_chain (u : QueueStatUpdater) :
    ∀ (L : List (List Nat)) (s : List Nat) (fuel : Nat),
      ((s :: L).Chain' (fun a b => u.get_next a = GNResult.next b)) →
      u.get_next (((s :: L).getLast?).getD []) = .endOfTable →
      L.length < fuel →
      walkFrom u s fuel = L := by
  intro L
  induction L with
  | nil =>
    intro s fuel _ hend hfuel
    cases fuel with
    | zero => omega
    | succ f =>
      simp only [List.getLast?_singleton, Option.getD_some] at hend
      simp [walkFrom, hend]
  | cons t L2 ih =>
    intro s fuel hchain hend hfuel
    cases fuel with
    | zero => omega
    | succ f =>
      have hstep : u.get_next s = GNResult.next t := hchain.rel_head
      have htail : ((t :: L2).Chain' (fun a b => u.get_next a = GNResult.next b)) :=
        hchain.tail
      have hend2 : u.get_next (((t :: L2).getLast?).getD []) = .endOfTable := by
        rw [← List.getLast?_cons_cons (a := s)]
        exact hend
      have hlen : L2.length < f := by
        simp at hfuel
        omega
      simp only [walkFrom, hstep]
      rw [ih t f htail hend2 hlen]

theorem qWalk_eq (u : QueueStatUpdater) (h : u.WF) (hne : u.if_range ≠ []) :
    qWalk u = queueIndex u := by
  obtain ⟨i0, rest, hr⟩ := List.exists_cons_of_ne_nil hne
  obtain ⟨l1, ilast, hrlast⟩ : ∃ l1 il, u.if_range = l1 ++ [il] := by
    rcases List.eq_nil_or_concat u.if_range with he | ⟨l1, il, he⟩
    · exact absurd he hne
    · exact ⟨l1, il, by rw [he, List.concat_eq_append]⟩
  have hqine : queueIndex u ≠ [] := queueIndex_ne_nil u h hne
  obtain ⟨qs0, hq0, hne0, -⟩ := h.queues_some (i := i0) (by rw [hr]; simp)
  have hstart : u.get_next [] =
      GNResult.next [i0, DirectionTypes.INGRESS, (queuesOf u i0).headD 0, min_counter] := by
    have := get_next_start u i0 rest qs0 hr hq0 hne0
    rw [this]
    simp [queuesOf, hq0]
  have hchain :
      (([] : List Nat) :: queueIndex u).Chain'
        (fun a b => u.get_next a = GNResult.next b) := by
    refine List.Chain'.cons' ((chain_queueIndex u h).imp (fun _ _ hab => hab.1)) ?_
    intro y hy
    rw [queueIndex_head? u h hr, Option.mem_def, Option.some_inj] at hy
    rw [← hy]
    exact hstart
  have hend : u.get_next
      (((([] : List Nat) :: queueIndex u).getLast?).getD []) = .endOfTable := by
    obtain ⟨x, L2, hxl⟩ := List.exists_cons_of_ne_nil hqine
    rw [hxl, List.getLast?_cons_cons, ← hxl, queueIndex_getLast? u h hrlast]
    obtain ⟨qsl, hql, hnel, hsl⟩ := h.queues_some (i := ilast) (by rw [hrlast]; simp)
    have := get_next_last u l1 ilast qsl hrlast h.1 hql hnel hsl
    simp only [Option.getD_some]
    rw [show (queuesOf u ilast).getLastD 0 = qsl.getLastD 0 by simp [queuesOf, hql]]
    exact this
  exact walkFrom_eq_of_chain u (queueIndex u) [] ((queueIndex u).length + 1)
    hchain hend (Nat.lt_succ_self _)

/-- Executable sufficient condition for `QueueStatUpdater.WF`. -/
def wfB (u : QueueStatUpdater) : Bool :=
  chainB (fun a b => decide (a < b)) u.if_range &&
  u.if_range.all (fun i =>
    !(queuesOf u i).isEmpty && chainB (fun a b => decide (a < b)) (queuesOf u i))

theorem WF_of_wfB {u : QueueStatUpdater} (h : wfB u = true) : u.WF := by
  rw [wfB, Bool.and_eq_true, List.all_eq_true] at h
  refine ⟨chain'_of_chainB _ (fun a b hb => of_decide_eq_true hb) h.1, ?_⟩
  intro i hi
  have h2 := h.2 i hi
  rw [Bool.and_eq_true] at h2
  have h21 := h2.1
  refine ⟨?_, chain'_of_chainB _ (fun a b hb => of_decide_eq_true hb) h2.2⟩
  intro he
  rw [he] at h21
  simp at h21

/-! ## ciscoSwitchQosMIB: counter resolution -/

/-- Result of a value-resolution call: an integer value, a returned
Python `None`, or an uncaught exception. -/
inductive StatResult where
  | value (v : Int)
  | noValue
  | error
deriving DecidableEq

/-- QueueStatUpdater._get_counter from ciscoSwitchQosMIB.py.  Returns
`none` for the branches that return Python `None` (queue oid missing
from `port_queues_map`, missing or empty queue type, unknown counter
id) and `some 0` when the stat table or the counter field is absent
(the KeyError handler logs a warning and returns 0). -/
def QueueStatUpdater.get_counter (u : QueueStatUpdater) (if_index : Nat)
    (queue_index : Int) (queue_counter_id : Nat) : Option Int :=
  match u.port_queues_map if_index queue_index with
  | none => none
  | some queue_oid =>
    match u.queue_type_map queue_oid with
    | none => none
    | some queue_type =>
      if queue_type = "" then none
      else
        match lookupCounter queue_counter_id with
        | none => none
        | some (counter_sai_name, counter_sai_type) =>
          if queue_type ≠ counter_sai_type then some 0
          else
            match u.queue_stat_map queue_oid with
            | none => some 0
            | some stat =>
              match stat counter_sai_name with
              | none => some 0
              | some v => some v

/-- The LAG member loop of `handle_stat_request`: `counter_value` starts
at 0 and each member's `_get_counter` result is added with `+=`.  A
member whose `_get_counter` returns Python `None` makes `+=` raise a
TypeError, modelled as `.error`. -/
def sumLagMembers (u : QueueStatUpdater) (queue_index : Int)
    (queue_counter_id : Nat) : List String → StatResult
  | [] => .value 0
  | m :: rest =>
    match u.get_counter (u.get_index m) queue_index queue_counter_id with
    | none => .error
    | some v =>
      match sumLagMembers u queue_index queue_counter_id rest with
      | .value acc => .value (v + acc)
      | r => r

/-- QueueStatUpdater.handle_stat_request from ciscoSwitchQosMIB.py.
A sub-id of length other than 4 returns Python `None`; a direction other
than EGRESS returns 0; a LAG oid sums the members; otherwise the value is
resolved directly (with `None` from `_get_counter` passed through). -/
def QueueStatUpdater.handle_stat_request (u : QueueStatUpdater) (sub_id : List Nat) : StatResult :=
  match sub_id with
  | [if_index, if_direction, queue_index, queue_counter_id] =>
    if if_direction ≠ DirectionTypes.EGRESS then .value 0
    else
      match u.oid_lag_name_map if_index with
      | some lag_name =>
        match u.lag_name_if_name_map lag_name with
        | none => .error
        | some members => sumLagMembers u ((queue_index : Int) - 1) queue_counter_id members
      | none =>
        match u.get_counter if_index ((queue_index : Int) - 1) queue_counter_id with
        | some v => .value v
        | none => .noValue
  | _ => .noValue

/-! ## ciscoPfcExtMIB: PfcUpdater -/

/-- State of a `PfcUpdater` object after `update_data`.  `if_range` is the
list of one-element tuples built by `[(i,) for i in sorted(...)]`.
`get_index` models `mibs.get_index` (not under src/): the topology
source's interface-name to OID-index mapping. -/
structure PfcUpdater where
  if_range : List (List Nat)
  oid_sai_map : Nat → Option String
  if_counters : String → Option (String → Option Int)
  oid_lag_name_map : Nat → Option String
  lag_name_if_name_map : String → Option (List String)
  get_index : String → Nat

/-- Python's `bisect.bisect_right`, modelled by its library contract on a
sorted list: the insertion point, i.e. the number of leading elements not
greater than the probe. -/
def bisect_right (l : List (List Nat)) (x : List Nat) : Nat :=
  (l.takeWhile (fun y => !lexLtB x y)).length

/-- PfcUpdater.get_next from ciscoPfcExtMIB.py.  The whole body runs in a
try/except that converts IndexError into a logged message and a `None`
return, which is why the empty-range case yields `none` here. -/
def PfcUpdater.get_next (u : PfcUpdater) (sub_id : Option (List Nat)) : Option (List Nat) :=
  match sub_id with
  | none => u.if_range.head?
  | some s =>
    if bisect_right u.if_range s ≥ u.if_range.length then none
    else u.if_range[bisect_right u.if_range s]?

/-- PfcUpdater.get_oid from ciscoPfcExtMIB.py. -/
def PfcUpdater.get_oid (u : PfcUpdater) (sub_id : Option (List Nat)) : Option Nat :=
  match sub_id with
  | none => none
  | some s => if s ∈ u.if_range then s.head? else none

/-- PfcUpdater._get_counter from ciscoPfcExtMIB.py.  A missing oid in
`oid_sai_map` raises an uncaught KeyError (`.error`); a missing counter
table or field is caught and returns Python `None` (`.noValue`). -/
def PfcUpdater.get_counter (u : PfcUpdater) (oid : Nat) (counter_name : String) : StatResult :=
  match u.oid_sai_map oid with
  | none => .error
  | some sai_id =>
    match u.if_counters sai_id with
    | none => .noValue
    | some fields =>
      match fields counter_name with
      | none => .noValue
      | some v => .value v

/-- The LAG member loop shared by `cpfcIfRequests`/`cpfcIfIndications`:
`counter_value += self._get_counter(...)`, where a `None` member result
makes `+=` raise TypeError (`.error`). -/
def pfcSumLagMembers (u : PfcUpdater) (counter_name : String) : List String → StatResult
  | [] => .value 0
  | m :: rest =>
    match u.get_counter (u.get_index m) counter_name with
    | .value v =>
      match pfcSumLagMembers u counter_name rest with
      | .value acc => .value (v + acc)
      | r => r
    | .noValue => .error
    | .error => .error

/-- PfcUpdater.cpfcIfRequests from ciscoPfcExtMIB.py. -/
def PfcUpdater.cpfcIfRequests (u : PfcUpdater) (sub_id : Option (List Nat)) : StatResult :=
  match u.get_oid sub_id with
  | none => .noValue
  | some oid =>
    match u.oid_lag_name_map oid with
    | some lag_name =>
      match u.lag_name_if_name_map lag_name with
      | none => .error
      | some members => pfcSumLagMembers u "SAI_PORT_STAT_PFC_3_RX_PKTS" members
    | none => u.get_counter oid "SAI_PORT_STAT_PFC_3_RX_PKTS"

/-- The bisect-based `PfcUpdater.get_next` returns exactly the least
index element lexicographically greater than the query, and `none` when
no element is greater (for a sorted `if_range`). -/
theorem pfc_get_next_spec (u : PfcUpdater)
    (hs : u.if_range.Chain' (fun a b => lexLtB a b = true)) (s : List Nat) :
    (∀ r, u.get_next (some s) = some r →
      lexLtB s r = true ∧ r ∈ u.if_range ∧
      ∀ z ∈ u.if_range, lexLtB s z = true → lexLtB z r = false) ∧
    (u.get_next (some s) = none ↔ ∀ z ∈ u.if_range, lexLtB s z = false) := by
  have hpair := pairwise_of_chain' (R := fun a b => lexLtB a b = true)
    (fun _ _ _ => lexLtB_trans) hs
  have hsplit :=
    List.takeWhile_append_dropWhile (p := fun y => !lexLtB s y) (l := u.if_range)
  cases hdw : u.if_range.dropWhile (fun y => !lexLtB s y) with
  | nil =>
    have htw : u.if_range.takeWhile (fun y => !lexLtB s y) = u.if_range := by
      conv_rhs => rw [← hsplit]
      rw [hdw, List.append_nil]
    have hlen : bisect_right u.if_range s = u.if_range.length := by
      rw [bisect_right, htw]
    have hnone : u.get_next (some s) = none := by
      simp only [PfcUpdater.get_next]
      simp [hlen]
    refine ⟨?_, ?_⟩
    · intro r hr
      rw [hnone] at hr
      cases hr
    · rw [hnone]
      simp only [true_iff]
      intro z hz
      have hz2 : z ∈ u.if_range.takeWhile (fun y => !lexLtB s y) := by
        rw [htw]; exact hz
      have := List.mem_takeWhile_imp hz2
      simpa using this
  | cons y t =>
    have hk : bisect_right u.if_range s
        = (u.if_range.takeWhile (fun y => !lexLtB s y)).length := rfl
    have hlenlt :
        (u.if_range.takeWhile (fun y => !lexLtB s y)).length < u.if_range.length := by
      conv_rhs => rw [← hsplit]
      rw [hdw]
      simp
    have hift : u.if_range
        = u.if_range.takeWhile (fun y => !lexLtB s y) ++ y :: t := by
      conv_lhs => rw [← hsplit]
      rw [hdw]
    have hget :
        u.if_range[(u.if_range.takeWhile (fun y => !lexLtB s y)).length]? = some y := by
      have h6 := @List.getElem?_append_right (List Nat)
        (u.if_range.takeWhile (fun y => !lexLtB s y)) (y :: t)
        ((u.if_range.takeWhile (fun y => !lexLtB s y)).length) (Nat.le_refl _)
      rw [← hift] at h6
      rw [h6]
      simp
    have hres : u.get_next (some s) = some y := by
      simp only [PfcUpdater.get_next, hk]
      rw [if_neg (by omega)]
      exact hget
    have hpy : lexLtB s y = true := by
      have h5 := List.head?_dropWhile_not (fun y => !lexLtB s y) u.if_range
      rw [hdw] at h5
      simp only [List.head?_cons] at h5
      simpa using h5
    have hymem : y ∈ u.if_range := by
      rw [← hsplit, hdw]
      exact List.mem_append_right _ (by simp)
    refine ⟨?_, ?_⟩
    · intro r hr
      rw [hres, Option.some_inj] at hr
      subst hr
      refine ⟨hpy, hymem, ?_⟩
      intro z hz hsz
      rw [← hsplit] at hz
      rcases List.mem_append.mp hz with hz1 | hz2
      · have := List.mem_takeWhile_imp hz1
        simp [hsz] at this
      · rw [hdw] at hz2
        rcases List.mem_cons.mp hz2 with hz4 | hz3
        · rw [hz4]
          exact lexLtB_irrefl y
        · have hdwsub :
              (u.if_range.dropWhile (fun y => !lexLtB s y)).Pairwise
                (fun a b => lexLtB a b = true) :=
            List.Pairwise.sublist (List.dropWhile_sublist _) hpair
          rw [hdw] at hdwsub
          exact lexLtB_asymm (List.rel_of_pairwise_cons hdwsub hz3)
    · rw [hres]
      constructor
      · intro h0
        simp at h0
      · intro hall
        have := hall y hymem
        rw [hpy] at this
        cases this

/-! ## ciscoPfcExtMIB: PfcPrioUpdater -/

/-- self.min_prio set in PfcPrioUpdater.__init__. -/
def PfcPrioUpdater.min_prio : Nat := 1

/-- self.max_prio set in PfcPrioUpdater.__init__. -/
def PfcPrioUpdater.max_prio : Nat := 8

/-- PfcPrioUpdater.get_next from ciscoPfcExtMIB.py.  For an empty query it
returns `(self.min_prio)` (a bare int).  For a non-empty query the
successor expression is commented out in the source (`return None
#(sub_id[0] + 1)`), so both remaining paths return Python `None`. -/
def PfcPrioUpdater.get_next (sub_id : Option (List Nat)) : Option Nat :=
  match sub_id with
  | none => some PfcPrioUpdater.min_prio
  | some [] => some PfcPrioUpdater.min_prio
  | some (p :: _) => if p < PfcPrioUpdater.max_prio then none else none

/-! ## ciscoEntityFRUControlMIB: PowerStatusHandler -/

/-- State of a `PowerStatusHandler` object: the PSU count captured in
`__init__`. -/
structure PowerStatusHandler where
  num_psus : Nat

/-- Result of `_getNumOfSupportedPsu`: a count, or an exception escaping
the handler's constructor. -/
inductive PsuInit where
  | val (n : Nat)
  | raises
deriving DecidableEq

/-- Python `int()` applied to a bytes object, modelled on pure digit
strings: the decimal value when every byte is an ASCII digit, `none`
(ValueError) otherwise. -/
def parseDecBytes (out : List Nat) : Option Nat :=
  if !out.isEmpty && out.all (fun b => decide (48 ≤ b ∧ b ≤ 57)) then
    some (out.foldl (fun a b => a * 10 + (b - 48)) 0)
  else none

/-- Decimal digits of a natural number (fuel-based helper). -/
def natDigitsAux : Nat → Nat → List Nat
  | 0, _ => []
  | fuel + 1, n => if n < 10 then [n] else natDigitsAux fuel (n / 10) ++ [n % 10]

/-- Decimal digit values of `str(n)` for a natural number `n`. -/
def natStr (n : Nat) : List Nat := natDigitsAux (n + 1) n

/-- PowerStatusHandler._getNumOfSupportedPsu from ciscoEntityFRUControlMIB.py.
The input is the raw bytes of `psuutil numpsus` (`none` models a
CalledProcessError, caught and logged).  An empty output hits the caught
IndexError on `output[0]`.  Otherwise `str(output[0])` is the decimal
string of the first byte's integer value, so the `isdigit()` guard is
evaluated on that string (here: the digit values of `str(output[0])`,
always a non-empty digit string); when it passes, `int(output)` either
parses the bytes or raises an uncaught ValueError. -/
def getNumOfSupportedPsu (output : Option (List Nat)) : PsuInit :=
  match output with
  | none => .val 0
  | some out =>
    match out with
    | [] => .val 0
    | b :: _ =>
      if !(natStr b).isEmpty && (natStr b).all (fun d => decide (d ≤ 9)) then
        match parseDecBytes out with
        | some n => .val n
        | none => .raises
      else .val 0

/-- PowerStatusHandler._getPsuIndex from ciscoEntityFRUControlMIB.py. -/
def PowerStatusHandler.getPsuIndex (h : PowerStatusHandler) (sub_id : List Nat) : Option Nat :=
  match sub_id with
  | [x] => if x < 1 ∨ x > h.num_psus then none else some x
  | _ => none

/-- PowerStatusHandler.get_next from ciscoEntityFRUControlMIB.py. -/
def PowerStatusHandler.get_next (h : PowerStatusHandler) (sub_id : List Nat) :
    Option (List Nat) :=
  if sub_id = [] then some [1]
  else
    match h.getPsuIndex sub_id with
    | some psu_index => if psu_index + 1 ≤ h.num_psus then some [psu_index + 1] else none
    | none => none

/-- Python's `needle in hay` on strings, as contiguous-subsequence search
over the character lists. -/
def containsSeq (needle : List Char) : List Char → Bool
  | [] => needle.isEmpty
  | c :: t => needle.isPrefixOf (c :: t) || containsSeq needle t

/-- PowerStatusHandler.getPsuStatus from ciscoEntityFRUControlMIB.py.
`probe` is the `psuutil status -i <n> --textonly` subprocess (`none`
models a CalledProcessError).  The output is split on a colon; `OK` must
lead the second part and the PSU index must occur in the first. -/
def PowerStatusHandler.getPsuStatus (h : PowerStatusHandler)
    (probe : Nat → Option String) (sub_id : List Nat) : Option Nat :=
  match h.getPsuIndex sub_id with
  | none => none
  | some psu_index =>
    match probe psu_index with
    | none => none
    | some output =>
      match output.splitOn ":" with
      | p0 :: p1 :: _ =>
        if p1.startsWith "OK" && containsSeq (toString psu_index).toList p0.toList
        then some 1 else some 0
      | _ => some 0

/-! ## Helper lemmas for the claim theorems -/

theorem chain'_rel_of_split {α : Type} {R : α → α → Prop} {L P S : List α} {a b : α}
    (hc : L.Chain' R) (hL : L = P ++ a :: b :: S) : R a b := by
  subst hL
  exact (List.chain'_append_cons_cons.mp hc).2.1

/-- Every row produced for interface `j` starts with `j`. -/
theorem mem_rowsFor_head (u : QueueStatUpdater) (j : Nat) {r : List Nat}
    (hr : r ∈ rowsFor u j) : r.head? = some j := by
  rw [rowsFor] at hr
  rcases List.mem_append.mp hr with h1 | h1 <;>
  · rw [queueRows] at h1
    obtain ⟨q, -, hq⟩ := List.mem_flatMap.mp h1
    rw [ctrRows] at hq
    obtain ⟨c, -, hc⟩ := List.mem_map.mp hq
    rw [← hc]
    rfl

/-- The row for a given queue and counter id is in the interface's rows. -/
theorem mem_rowsFor_of_queue (u : QueueStatUpdater) (i d q c : Nat)
    (hd : d = DirectionTypes.INGRESS ∨ d = DirectionTypes.EGRESS)
    (hq : q ∈ queuesOf u i) (hc : c ∈ ctrRange) :
    [i, d, q, c] ∈ rowsFor u i := by
  rw [rowsFor]
  have hmem : [i, d, q, c] ∈ queueRows u i d := by
    rw [queueRows]
    exact List.mem_flatMap.mpr ⟨q, hq, by rw [ctrRows]; exact List.mem_map.mpr ⟨c, hc, rfl⟩⟩
  rcases hd with rfl | rfl
  · exact List.mem_append_left _ hmem
  · exact List.mem_append_right _ hmem

/-! ## Example states used by the witnesses and counterexamples -/

/-- Example queue-stats updater: interface 10 with queues 1..4 and
interface 20 with queues 1..2; queue (10, position 1) is a unicast queue
with oid 101 and a stored packet counter, queue (10, position 2) is a
multicast queue with oid 102 and no stat table. -/
def exU : QueueStatUpdater :=
  { if_range := [10, 20]
    port_queue_list_map := fun i =>
      if i = 10 then some [1, 2, 3, 4] else if i = 20 then some [1, 2] else none
    port_queues_map := fun i q =>
      if i = 10 ∧ q = 0 then some 101
      else if i = 10 ∧ q = 1 then some 102
      else none
    queue_type_map := fun oid =>
      if oid = 101 then some "SAI_QUEUE_TYPE_UNICAST"
      else if oid = 102 then some "SAI_QUEUE_TYPE_MULTICAST"
      else none
    queue_stat_map := fun oid =>
      if oid = 101 then
        some (fun f => if f = "SAI_QUEUE_STAT_PACKETS" then some 100 else none)
      else none
    oid_lag_name_map := fun _ => none
    lag_name_if_name_map := fun _ => none
    get_index := fun _ => 0 }

/-- Example queue-stats updater with a LAG (oid 1000, members Ethernet0 at
index 10 and Ethernet4 at index 20); member Ethernet4 has no queue oid, so
its `_get_counter` returns Python `None`. -/
def exUlag : QueueStatUpdater :=
  { if_range := [1000]
    port_queue_list_map := fun i => if i = 1000 then some [1] else none
    port_queues_map := fun i q => if i = 10 ∧ q = 0 then some 201 else none
    queue_type_map := fun oid =>
      if oid = 201 then some "SAI_QUEUE_TYPE_UNICAST" else none
    queue_stat_map := fun oid =>
      if oid = 201 then
        some (fun f => if f = "SAI_QUEUE_STAT_PACKETS" then some 7 else none)
      else none
    oid_lag_name_map := fun i => if i = 1000 then some "PortChannel1" else none
    lag_name_if_name_map := fun n =>
      if n = "PortChannel1" then some ["Ethernet0", "Ethernet4"] else none
    get_index := fun n => if n = "Ethernet0" then 10 else 20 }

/-- Example PFC updater with a LAG (oid 1000, members Ethernet0 and
Ethernet4) where both members hold the PFC3 rx counter (100 and 5). -/
def exPfcA : PfcUpdater :=
  { if_range := [[1000]]
    oid_sai_map := fun o =>
      if o = 10 then some "sai-a" else if o = 20 then some "sai-b" else none
    if_counters := fun s =>
      if s = "sai-a" then
        some (fun f => if f = "SAI_PORT_STAT_PFC_3_RX_PKTS" then some 100 else none)
      else if s = "sai-b" then
        some (fun f => if f = "SAI_PORT_STAT_PFC_3_RX_PKTS" then some 5 else none)
      else none
    oid_lag_name_map := fun o => if o = 1000 then some "PortChannel1" else none
    lag_name_if_name_map := fun n =>
      if n = "PortChannel1" then some ["Ethernet0", "Ethernet4"] else none
    get_index := fun n => if n = "Ethernet0" then 10 else 20 }

/-- Same as `exPfcA` except member Ethernet4 (sai-b) has a counter table
with no PFC3 rx field. -/
def exPfcB : PfcUpdater :=
  { exPfcA with
    if_counters := fun s =>
      if s = "sai-a" then
        some (fun f => if f = "SAI_PORT_STAT_PFC_3_RX_PKTS" then some 100 else none)
      else if s = "sai-b" then some (fun _ => none)
      else none }

/-- PSU handler for a platform reporting zero power supplies. -/
def psu0 : PowerStatusHandler := { num_psus := 0 }

/-- Missing-field lookup shape of `queue_stat_map[table][field]` (the
two-level subscript guarded by one KeyError handler). -/
def statField (u : QueueStatUpdater) (oid : Nat) (nm : String) : Option Int :=
  match u.queue_stat_map oid with
  | none => none
  | some fields => fields nm

/-- Missing-field lookup shape of `if_counters[sai_id][field]`. -/
def ifCounterField (u : PfcUpdater) (sai nm : String) : Option Int :=
  match u.if_counters sai with
  | none => none
  | some fields => fields nm

/-! ## Claim theorems -/

/-- C1: the spec's total-order walk property is broken by
`PfcPrioUpdater.get_next`: the first call returns the minimum priority,
but every call with a non-empty suffix returns `None` (the successor
expression is commented out in the source), so with `min_prio = 1 <
max_prio = 8` the walk never visits priorities 2..8. -/
theorem c1_pfc_prio_get_next_broken :
    PfcPrioUpdater.get_next none = some PfcPrioUpdater.min_prio ∧
    (∀ p rest, PfcPrioUpdater.get_next (some (p :: rest)) = none) ∧
    PfcPrioUpdater.min_prio < PfcPrioUpdater.max_prio := by
  refine ⟨rfl, ?_, by decide⟩
  intro p rest
  simp [PfcPrioUpdater.get_next]

/-- C2: LAG aggregation sums the members when every member has data
(100 + 5 = 105 for `exPfcA`), but a member whose counter data is missing
does not contribute 0: the `counter_value += None` raises a TypeError and
the request errors out, both in the PFC table (`exPfcB`) and in the
queue-stats table (`exUlag`, whose second member has no queue oid). -/
theorem c2_lag_missing_member_aborts :
    exPfcA.cpfcIfRequests (some [1000]) = .value 105 ∧
    exPfcB.cpfcIfRequests (some [1000]) = .error ∧
    exUlag.handle_stat_request [1000, 2, 1, 1] = .error := by
  refine ⟨by decide, by decide, by decide⟩

/-- C6: a counter selector whose required queue type differs from the
queue's recorded type resolves to the integer 0 through
`handle_stat_request`, independently of the stored counter values
(`queue_stat_map` is never consulted on this path). -/
theorem c6_type_mismatch_zero (u : QueueStatUpdater) (i q cid oid : Nat)
    (qt nm ty : String)
    (hlag : u.oid_lag_name_map i = none)
    (h1 : u.port_queues_map i ((q : Int) - 1) = some oid)
    (h2 : u.queue_type_map oid = some qt) (h3 : qt ≠ "")
    (h4 : lookupCounter cid = some (nm, ty)) (h5 : qt ≠ ty) :
    u.handle_stat_request [i, DirectionTypes.EGRESS, q, cid] = .value 0 := by
  have hc : u.get_counter i ((q : Int) - 1) cid = some 0 := by
    simp [QueueStatUpdater.get_counter, h1, h2, h3, h4, h5]
  simp [QueueStatUpdater.handle_stat_request, hlag, hc]

/-- C6 witness: on `exU`, queue position 1 of interface 10 is a unicast
queue; counter id 3 requires multicast, so the request resolves to 0 even
though the queue's stat table stores a 100-packet counter. -/
theorem c6_witness :
    exU.handle_stat_request [10, DirectionTypes.EGRESS, 1, 3] = .value 0 ∧
    (exU.queue_stat_map 101).isSome = true := by
  refine ⟨c6_type_mismatch_zero exU 10 1 3 101 "SAI_QUEUE_TYPE_UNICAST"
    "SAI_QUEUE_STAT_PACKETS" "SAI_QUEUE_TYPE_MULTICAST"
    rfl (by decide) rfl (by decide) (by decide) (by decide), rfl⟩

/-- C7 (amended): a counter field absent from the cached map resolves to
the default 0 in the queue-stats table (`_get_counter` catches the
KeyError, logs and returns 0) but to Python `None` in the PFC table
(`_get_counter` catches the KeyError and returns `None`). -/
theorem c7_missing_field_default (u : QueueStatUpdater) (upfc : PfcUpdater)
    (i : Nat) (qi : Int) (cid oid : Nat) (qt nm : String)
    (o : Nat) (sai fld : String)
    (h1 : u.port_queues_map i qi = some oid)
    (h2 : u.queue_type_map oid = some qt) (h3 : qt ≠ "")
    (h4 : lookupCounter cid = some (nm, qt))
    (hmiss : statField u oid nm = none)
    (hp1 : upfc.oid_sai_map o = some sai)
    (hmiss2 : ifCounterField upfc sai fld = none) :
    u.get_counter i qi cid = some 0 ∧ upfc.get_counter o fld = .noValue := by
  constructor
  · rw [statField] at hmiss
    cases hsm : u.queue_stat_map oid with
    | none => simp [QueueStatUpdater.get_counter, h1, h2, h3, h4, hsm]
    | some fields =>
      rw [hsm] at hmiss
      simp only [] at hmiss
      simp [QueueStatUpdater.get_counter, h1, h2, h3, h4, hsm, hmiss]
  · rw [ifCounterField] at hmiss2
    cases hic : upfc.if_counters sai with
    | none => simp [PfcUpdater.get_counter, hp1, hic]
    | some fields =>
      rw [hic] at hmiss2
      simp only [] at hmiss2
      simp [PfcUpdater.get_counter, hp1, hic, hmiss2]

/-- C7 counterexample: the PFC `_get_counter` returns Python `None`, not
the default 0, when the counter field is absent. -/
theorem c7_counterexample :
    exPfcB.get_counter 20 "SAI_PORT_STAT_PFC_3_RX_PKTS" = .noValue ∧
    StatResult.noValue ≠ StatResult.value 0 := by
  refine ⟨by decide, by decide⟩

/-- C7 witness: on `exU`, the multicast queue oid 102 has no stat table,
so a matching-type request defaults to 0; on `exPfcB`, sai-b's table lacks
the PFC3 field, so the PFC resolver returns `None`. -/
theorem c7_witness :
    exU.get_counter 10 1 3 = some 0 ∧
    exPfcB.get_counter 20 "SAI_PORT_STAT_PFC_3_RX_PKTS" = StatResult.noValue :=
  c7_missing_field_default exU exPfcB 10 1 3 102 "SAI_QUEUE_TYPE_MULTICAST"
    "SAI_QUEUE_STAT_PACKETS" 20 "sai-b" "SAI_PORT_STAT_PFC_3_RX_PKTS"
    (by decide) rfl (by decide) (by decide) rfl rfl rfl

/-- C9: a partial suffix of length 1, 2 or 3 is extended with the minimum
values of the remaining coordinates (direction INGRESS for length 1, the
interface's first queue position, the minimum counter id); the given
coordinates are kept unchanged. -/
theorem c9_partial_suffix (u : QueueStatUpdater) (i d q : Nat) {qs : List Nat}
    (hq : u.port_queue_list_map i = some qs) (hne : qs ≠ []) :
    u.get_next [i] = .next [i, DirectionTypes.INGRESS, qs.headD 0, min_counter] ∧
    u.get_next [i, d] = .next [i, d, qs.headD 0, min_counter] ∧
    u.get_next [i, d, q] = .next [i, d, q, min_counter] := by
  obtain ⟨a, t, rfl⟩ := List.exists_cons_of_ne_nil hne
  refine ⟨?_, ?_, ?_⟩ <;> simp [QueueStatUpdater.get_next, hq]

/-- C9 witness at `exU`, interface 10 (queues 1..4). -/
theorem c9_witness :
    exU.get_next [10] = .next [10, 1, 1, 1] ∧
    exU.get_next [10, 2] = .next [10, 2, 1, 1] ∧
    exU.get_next [10, 2, 3] = .next [10, 2, 3, 1] :=
  c9_partial_suffix exU 10 2 3 rfl (by decide)

/-- C10: the PSU count probe returns 0 when the tool fails or produces
empty output, parses digit output (`b'2'` gives 2), but raises an uncaught
ValueError on non-numeric output such as `b'x'` (byte 120): the
`str(output[0]).isdigit()` guard tests the decimal string of the first
byte's integer value, which is always all digits, so `int(output)` is
reached and raises. -/
theorem c10_psu_count_probe :
    getNumOfSupportedPsu none = .val 0 ∧
    getNumOfSupportedPsu (some []) = .val 0 ∧
    getNumOfSupportedPsu (some [50]) = .val 2 ∧
    getNumOfSupportedPsu (some [120]) = .raises := by
  refine ⟨rfl, rfl, by decide, by decide⟩

/-- C5 (amended): with a none/empty query, `get_next` returns the first
(lexicographically smallest) suffix of the index when the index is
non-empty; on an empty index the PFC table returns `none`, but the PSU
table still returns `(1,)` (even with 0 supported PSUs) and the
queue-stats table raises an IndexError. -/
theorem c5_start_of_table (upfc : PfcUpdater)
    (hpfc : upfc.if_range.Chain' (fun a b => lexLtB a b = true))
    (h0 : PowerStatusHandler)
    (u : QueueStatUpdater) (hwf : u.WF) :
    (upfc.if_range = [] → upfc.get_next none = none) ∧
    (∀ s rest, upfc.if_range = s :: rest →
      upfc.get_next none = some s ∧ ∀ z ∈ upfc.if_range, lexLtB z s = false) ∧
    h0.get_next [] = some [1] ∧
    (∀ i rest, u.if_range = i :: rest →
      u.get_next []
        = .next [i, DirectionTypes.INGRESS, (queuesOf u i).headD 0, min_counter] ∧
      (queueIndex u).head?
        = some [i, DirectionTypes.INGRESS, (queuesOf u i).headD 0, min_counter] ∧
      ∀ z ∈ queueIndex u,
        lexLtB z [i, DirectionTypes.INGRESS, (queuesOf u i).headD 0, min_counter]
          = false) ∧
    (u.if_range = [] → u.get_next [] = .error) := by
  refine ⟨?_, ?_, ?_, ?_, ?_⟩
  · intro he
    simp [PfcUpdater.get_next, he]
  · intro s rest hr
    constructor
    · simp [PfcUpdater.get_next, hr]
    · intro z hz
      have hpair := pairwise_of_chain' (R := fun a b => lexLtB a b = true)
        (fun _ _ _ => lexLtB_trans) hpfc
      rw [hr] at hpair hz
      rcases List.mem_cons.mp hz with hz1 | hz2
      · rw [hz1]
        exact lexLtB_irrefl s
      · exact lexLtB_asymm (List.rel_of_pairwise_cons hpair hz2)
  · simp [PowerStatusHandler.get_next]
  · intro i rest hr
    obtain ⟨qs, hq, hneq, -⟩ := hwf.queues_some (i := i) (by rw [hr]; simp)
    have hstart : u.get_next []
        = .next [i, DirectionTypes.INGRESS, (queuesOf u i).headD 0, min_counter] := by
      rw [get_next_start u i rest qs hr hq hneq]
      simp [queuesOf, hq]
    have hhead := queueIndex_head? u hwf hr
    refine ⟨hstart, hhead, ?_⟩
    intro z hz
    have hpq := queueIndex_pairwise u hwf
    obtain ⟨h1, rest2, hql⟩ : ∃ h1 rest2, queueIndex u = h1 :: rest2 := by
      cases hqi : queueIndex u with
      | nil => rw [hqi] at hhead; cases hhead
      | cons a t => exact ⟨a, t, rfl⟩
    have hh1 : h1 = [i, DirectionTypes.INGRESS, (queuesOf u i).headD 0, min_counter] := by
      rw [hql] at hhead
      simpa using hhead
    rw [hql] at hz hpq
    rw [← hh1]
    rcases List.mem_cons.mp hz with hz1 | hz2
    · rw [hz1]
      exact lexLtB_irrefl h1
    · exact lexLtB_asymm (List.rel_of_pairwise_cons hpq hz2)
  · intro he
    simp [QueueStatUpdater.get_next, he]

/-- C5 counterexample: with 0 supported PSUs the PSU index is empty, yet
`get_next` on the empty suffix returns `(1,)` instead of `none` — and
`(1,)` is not even a valid row of the (empty) table. -/
theorem c5_counterexample :
    psu0.get_next [] = some [1] ∧ psu0.getPsuIndex [1] = none := by
  refine ⟨by decide, by decide⟩

/-- C5 witness at `exPfcA`, a 2-PSU handler and `exU`. -/
theorem c5_witness :
    exPfcA.get_next none = some [1000] ∧
    PowerStatusHandler.get_next { num_psus := 2 } [] = some [1] ∧
    exU.get_next [] = .next [10, 1, 1, 1] := by
  have h := c5_start_of_table exPfcA (List.chain'_singleton _)
    { num_psus := 2 } exU (WF_of_wfB (by decide))
  exact ⟨(h.2.1 [1000] [] rfl).1, h.2.2.1, (h.2.2.2.1 10 [20] rfl).1⟩

/-- C8: ingress rows are part of the walked address space (for every
interface of the range, the walk contains an ingress row and an egress
row), and resolving any fully-specified suffix with the ingress direction
returns 0. -/
theorem c8_ingress_rows (u : QueueStatUpdater) (hwf : u.WF) (hne : u.if_range ≠ []) :
    (∀ i q c, u.handle_stat_request [i, DirectionTypes.INGRESS, q, c] = .value 0) ∧
    (∀ i ∈ u.if_range,
      [i, DirectionTypes.INGRESS, (queuesOf u i).headD 0, min_counter] ∈ qWalk u ∧
      [i, DirectionTypes.EGRESS, (queuesOf u i).headD 0, min_counter] ∈ qWalk u) := by
  constructor
  · intro i q c
    simp [QueueStatUpdater.handle_stat_request, DirectionTypes.INGRESS,
      DirectionTypes.EGRESS]
  · intro i hi
    rw [qWalk_eq u hwf hne, queueIndex]
    obtain ⟨qs, hq, hneq, -⟩ := hwf.queues_some hi
    have hqmem : (queuesOf u i).headD 0 ∈ queuesOf u i := by
      obtain ⟨a, t, ha⟩ := List.exists_cons_of_ne_nil hneq
      simp [queuesOf, hq, ha]
    have hcmem : min_counter ∈ ctrRange := by decide
    constructor
    · exact List.mem_flatMap.mpr
        ⟨i, hi, mem_rowsFor_of_queue u i _ _ _ (Or.inl rfl) hqmem hcmem⟩
    · exact List.mem_flatMap.mpr
        ⟨i, hi, mem_rowsFor_of_queue u i _ _ _ (Or.inr rfl) hqmem hcmem⟩

/-- C8 witness at `exU`. -/
theorem c8_witness :
    exU.handle_stat_request [10, DirectionTypes.INGRESS, 1, 1] = .value 0 ∧
    [10, 1, 1, 1] ∈ qWalk exU ∧ [10, 2, 1, 1] ∈ qWalk exU := by
  have h := c8_ingress_rows exU (WF_of_wfB (by decide)) (by decide)
  have h2 := h.2 10 (by decide)
  exact ⟨h.1 10 1 1, h2.1, h2.2⟩

/-- C4 (amended): the PFC table's bisect-based `get_next` returns the
lexicographically smallest index element strictly greater than ANY query
(`none` when no element is greater); the queue-stats odometer guarantees
this only for queries that are members of the index: on a member it
steps to the immediate (and hence least greater) successor, and on the
last member it returns `None`. -/
theorem c4_get_next_successor (upfc : PfcUpdater)
    (hpfc : upfc.if_range.Chain' (fun a b => lexLtB a b = true)) (s : List Nat)
    (u : QueueStatUpdater) (hwf : u.WF) :
    ((∀ r, upfc.get_next (some s) = some r →
        lexLtB s r = true ∧ r ∈ upfc.if_range ∧
        ∀ z ∈ upfc.if_range, lexLtB s z = true → lexLtB z r = false) ∧
      (upfc.get_next (some s) = none ↔ ∀ z ∈ upfc.if_range, lexLtB s z = false)) ∧
    (∀ P a b S, queueIndex u = P ++ a :: b :: S →
      u.get_next a = .next b ∧ lexLtB a b = true ∧
      ∀ z ∈ queueIndex u, lexLtB a z = true → lexLtB z b = false) ∧
    (∀ P a, queueIndex u = P ++ [a] → u.get_next a = .endOfTable) := by
  refine ⟨pfc_get_next_spec upfc hpfc s, ?_, ?_⟩
  · intro P a b S hsplit
    have hch := chain_queueIndex u hwf
    have hstep := chain'_rel_of_split hch hsplit
    refine ⟨hstep.1, hstep.2, ?_⟩
    have hpq := queueIndex_pairwise u hwf
    rw [hsplit] at hpq
    have hparts := List.pairwise_append.mp hpq
    intro z hz haz
    rw [hsplit] at hz
    rcases List.mem_append.mp hz with hzP | hzc
    · have hza : lexLtB z a = true := hparts.2.2 z hzP a (by simp)
      have hfa := lexLtB_asymm hza
      rw [haz] at hfa
      cases hfa
    · rcases List.mem_cons.mp hzc with hz1 | hz2
      · rw [hz1, lexLtB_irrefl] at haz
        cases haz
      · rcases List.mem_cons.mp hz2 with hz3 | hz4
        · rw [hz3]
          exact lexLtB_irrefl b
        · exact lexLtB_asymm
            (List.rel_of_pairwise_cons (List.pairwise_cons.mp hparts.2.1).2 hz4)
  · intro P a hsplit
    have hne : u.if_range ≠ [] := by
      intro he
      rw [queueIndex, he] at hsplit
      simp at hsplit
    obtain ⟨l1, il, hrl⟩ : ∃ l1 il, u.if_range = l1 ++ [il] := by
      rcases List.eq_nil_or_concat u.if_range with he | ⟨l1, il, he⟩
      · exact absurd he hne
      · exact ⟨l1, il, by rw [he, List.concat_eq_append]⟩
    have hlast := queueIndex_getLast? u hwf hrl
    have hlast2 : (queueIndex u).getLast? = some a := by
      rw [hsplit, List.getLast?_concat]
    rw [hlast] at hlast2
    have ha : a = [il, DirectionTypes.EGRESS, (queuesOf u il).getLastD 0, max_counter] :=
      (Option.some_inj.mp hlast2).symm
    obtain ⟨qs, hq, hneq, hsq⟩ := hwf.queues_some (i := il) (by rw [hrl]; simp)
    rw [ha, show (queuesOf u il).getLastD 0 = qs.getLastD 0 by simp [queuesOf, hq]]
    exact get_next_last u l1 il qs hrl hwf.1 hq hneq hsq

/-- C4 counterexample: querying the queue-stats odometer with the
between-rows suffix (10, 2, 0, 8) raises a ValueError (queue 0 is not in
interface 10's queue list) even though the index holds a strictly greater
suffix, (10, 2, 1, 1), that a get-next walk should have returned. -/
theorem c4_counterexample :
    exU.get_next [10, 2, 0, 8] = .error ∧
    [10, 2, 1, 1] ∈ queueIndex exU ∧
    lexLtB [10, 2, 0, 8] [10, 2, 1, 1] = true := by
  refine ⟨by decide, by decide, by decide⟩

/-- C4 witness: the PFC successor of the between-rows query (500,) in the
index [(1000,)] is (1000,). -/
theorem c4_witness :
    List.Chain' (fun a b => lexLtB a b = true) exPfcA.if_range ∧
    lexLtB [500] [1000] = true ∧ [1000] ∈ exPfcA.if_range := by
  have h := c4_get_next_successor exPfcA (List.chain'_singleton _) [500] exU
    (WF_of_wfB (by decide))
  have h2 := h.1.1 [1000] (by decide)
  exact ⟨List.chain'_singleton _, h2.1, h2.2.1⟩

/-- C3: with interfaces X and Y adjacent in the sorted range, the full
walk lists all of X's rows (every queue position of X, in both
directions) before any row of Y, strictly increasing throughout, and the
step out of X's last row lands on Y's first row with every inner
coordinate reset to Y's minimum (ingress, Y's first queue position, the
minimum counter id) regardless of X's queue count. -/
theorem c3_sparse_rollover (u : QueueStatUpdater) (l1 l2 : List Nat) (X Y : Nat)
    (qsX qsY : List Nat) (hwf : u.WF)
    (hr : u.if_range = l1 ++ X :: Y :: l2)
    (hqX : u.port_queue_list_map X = some qsX)
    (hqY : u.port_queue_list_map Y = some qsY) :
    qWalk u = l1.flatMap (rowsFor u) ++ rowsFor u X
      ++ (rowsFor u Y ++ l2.flatMap (rowsFor u)) ∧
    (∀ q ∈ qsX,
      [X, DirectionTypes.INGRESS, q, min_counter] ∈ rowsFor u X ∧
      [X, DirectionTypes.EGRESS, q, min_counter] ∈ rowsFor u X) ∧
    (∀ r ∈ l1.flatMap (rowsFor u) ++ rowsFor u X, r.head? ≠ some Y) ∧
    (qWalk u).Pairwise (fun a b => lexLtB a b = true) ∧
    u.get_next [X, DirectionTypes.EGRESS, qsX.getLastD 0, max_counter]
      = .next [Y, DirectionTypes.INGRESS, qsY.headD 0, min_counter] := by
  have hne : u.if_range ≠ [] := by
    rw [hr]
    simp
  have hXmem : X ∈ u.if_range := by rw [hr]; simp
  have hYmem : Y ∈ u.if_range := by rw [hr]; simp
  obtain ⟨qsX2, hqX2, hneX, hsX⟩ := hwf.queues_some hXmem
  obtain ⟨qsY2, hqY2, hneY, hsY⟩ := hwf.queues_some hYmem
  rw [hqX] at hqX2
  rw [hqY] at hqY2
  obtain rfl : qsX = qsX2 := Option.some_inj.mp hqX2
  obtain rfl : qsY = qsY2 := Option.some_inj.mp hqY2
  have hquX : queuesOf u X = qsX := by simp [queuesOf, hqX]
  have hpair : (l1 ++ X :: Y :: l2).Pairwise (· < ·) := by
    have := pairwise_lt_of_chain' hwf.1
    rwa [hr] at this
  have hXY : X < Y := (List.chain'_append_cons_cons.mp (hr ▸ hwf.1)).2.1
  have hcmem : min_counter ∈ ctrRange := by decide
  refine ⟨?_, ?_, ?_, ?_, ?_⟩
  · rw [qWalk_eq u hwf hne, queueIndex, hr]
    simp [List.flatMap_append, List.flatMap_cons]
  · intro q hqmem
    have hq2 : q ∈ queuesOf u X := by rw [hquX]; exact hqmem
    exact ⟨mem_rowsFor_of_queue u X _ _ _ (Or.inl rfl) hq2 hcmem,
      mem_rowsFor_of_queue u X _ _ _ (Or.inr rfl) hq2 hcmem⟩
  · intro r hrmem
    rcases List.mem_append.mp hrmem with h1 | h2
    · obtain ⟨j, hj, hrj⟩ := List.mem_flatMap.mp h1
      rw [mem_rowsFor_head u j hrj]
      intro hc
      have hjY : j = Y := by injection hc
      rw [hjY] at hj
      have := (List.pairwise_append.mp hpair).2.2 Y hj Y (by simp)
      exact Nat.lt_irrefl Y this
    · rw [mem_rowsFor_head u X h2]
      intro hc
      have hXeqY : X = Y := by injection hc
      omega
  · rw [qWalk_eq u hwf hne]
    exact queueIndex_pairwise u hwf
  · exact get_next_iface u l1 l2 X Y qsX qsY hr hwf.1 hqX hneX hsX hqY hneY

/-- C3 witness: `exU` has interface 10 with 4 queues followed by
interface 20 with 2 queues; stepping out of (10, egress, queue 4,
counter 8) yields (20, ingress, queue 1, counter 1). -/
theorem c3_witness :
    exU.WF ∧
    exU.get_next [10, DirectionTypes.EGRESS, 4, max_counter]
      = GNResult.next [20, DirectionTypes.INGRESS, 1, min_counter] := by
  have h := c3_sparse_rollover exU [] [] 10 20 [1, 2, 3, 4] [1, 2]
    (WF_of_wfB (by decide)) rfl rfl rfl
  exact ⟨WF_of_wfB (by decide), h.2.2.2.2⟩
